import Mathlib

/-!
Verification of the velocity estimators in `velocity.py` (FOAW, median
filter, Levant's differentiator).

The FOAW estimator and the median filter are embedded over the rationals
(the Python code performs exact field arithmetic on the sample values, so ℚ
is a faithful, computable model).  Levant's differentiator uses `sqrt` and
`sign`, so it is embedded over the reals with `Real.sqrt` and `Real.sign`
(numpy's `sign(0) = 0` agrees with `Real.sign 0 = 0`).

List indexing `pos[k-j]` from the source is rendered as `pos.getD (k - j) 0`;
inside the loops every such index is in range (see the window-bound theorem),
so the default value is never consulted.
-/

/-- Two-point slope of `foaw` (end-fit variant):
`b = (pos[k]-pos[k-i]) / (i*T)`. -/
def endSlope (pos : List ℚ) (T : ℚ) (k i : ℕ) : ℚ :=
  (pos.getD k 0 - pos.getD (k - i) 0) / ((i : ℚ) * T)

/-- Least-squares slope of `foaw` (best-fit variant):
`b = (i*sum([pos[k-j] for j in range(i+1)]) - 2*sum([pos[k-j]*j for j in range(i+1)]))
     / (T*i*(i+1)*(i+2)/6)`. -/
def bestSlope (pos : List ℚ) (T : ℚ) (k i : ℕ) : ℚ :=
  ((i : ℚ) * ((List.range (i + 1)).map (fun j => pos.getD (k - j) 0)).sum
      - 2 * ((List.range (i + 1)).map (fun j => pos.getD (k - j) 0 * (j : ℚ))).sum)
    / (T * (i : ℚ) * ((i : ℚ) + 1) * ((i : ℚ) + 2) / 6)

/-- The trial slope `b` used by `foaw` at step `k` for window parameter `i`. -/
def trialSlope (pos : List ℚ) (T : ℚ) (best : Bool) (k i : ℕ) : ℚ :=
  if best then bestSlope pos T k i else endSlope pos T k i

/-- Interior check of `foaw` at offset `j`: the projection
`ykj = pos[k] - b*j*T` lies within `pos[k-j] ± noise_max`. -/
def projInBand (pos : List ℚ) (T noise_max : ℚ) (k : ℕ) (b : ℚ) (j : ℕ) : Prop :=
  pos.getD (k - j) 0 - noise_max ≤ pos.getD k 0 - b * (j : ℚ) * T ∧
  pos.getD k 0 - b * (j : ℚ) * T ≤ pos.getD (k - j) 0 + noise_max

instance projInBand.decidable (pos : List ℚ) (T noise_max : ℚ) (k : ℕ)
    (b : ℚ) (j : ℕ) : Decidable (projInBand pos T noise_max k b j) :=
  inferInstanceAs (Decidable (_ ∧ _))

/-- The boolean test of `foaw`'s inner `j`-loop body:
`ykj < pos[k-j]-noise_max or ykj > pos[k-j]+noise_max`. -/
def projOutside (pos : List ℚ) (T noise_max : ℚ) (k : ℕ) (b : ℚ) (j : ℕ) : Bool :=
  decide (pos.getD k 0 - b * (j : ℚ) * T < pos.getD (k - j) 0 - noise_max) ||
  decide (pos.getD k 0 - b * (j : ℚ) * T > pos.getD (k - j) 0 + noise_max)

/-- The `outside` flag computed by `foaw`'s `for j in range(1,i)` loop
(the early `break` only short-circuits the scan, so `List.any` is faithful). -/
def windowOutside (pos : List ℚ) (T noise_max : ℚ) (k : ℕ) (b : ℚ) (i : ℕ) : Bool :=
  (List.range' 1 (i - 1)).any (projOutside pos T noise_max k b)

/-- The `for i in range(1, min(n,k))` loop of `foaw`, threading the
`velocity` accumulator and stopping at the first rejected window. -/
def foawLoop (pos : List ℚ) (T noise_max : ℚ) (best : Bool) (k : ℕ) :
    List ℕ → ℚ → ℚ
  | [], velocity => velocity
  | i :: rest, velocity =>
    let b := trialSlope pos T best k i
    if windowOutside pos T noise_max k b i then velocity
    else foawLoop pos T noise_max best k rest b

/-- One output step of `foaw`: `result[k]`. -/
def foawStep (pos : List ℚ) (T noise_max : ℚ) (n : ℕ) (best : Bool) (k : ℕ) : ℚ :=
  foawLoop pos T noise_max best k (List.range' 1 (min n k - 1)) 0

/-- First-Order Adaptive Windowing (`foaw` of `velocity.py`). -/
def foaw (pos : List ℚ) (sr noise_max : ℚ) (n : ℕ) (best : Bool) : List ℚ :=
  (List.range pos.length).map (foawStep pos (1 / sr) noise_max n best)

/-- Python slice `l[a:b]` for `0 ≤ a`. -/
def pySlice (l : List ℚ) (a b : ℕ) : List ℚ :=
  (l.drop a).take (b - a)

/-- numpy's `median`: sort ascending; middle element for odd length,
average of the two middle elements for even length. -/
def npMedian (l : List ℚ) : ℚ :=
  let s := List.insertionSort (· ≤ ·) l
  if l.length % 2 = 1 then s.getD (l.length / 2) 0
  else (s.getD (l.length / 2 - 1) 0 + s.getD (l.length / 2) 0) / 2

/-- `median_filter` of `velocity.py`: `result[0] = 0` and
`result[k] = median(pos[max(k-n,0):k])` for `k ≥ 1`. -/
def median_filter (pos : List ℚ) (n : ℕ) : List ℚ :=
  (List.range pos.length).map
    (fun k => if k = 0 then 0 else npMedian (pySlice pos (max (k - n) 0) k))

/-- The observer vector field `f(alpha, Lambda, p, u1, x)` of `velocity.py`,
returning `(du1/dt, dx/dt) = (-alpha*sign(e), u1 - Lambda*sqrt(|e|)*sign(e))`
with `e = x - p`. -/
noncomputable def f (alpha Lambda p u1 x : ℝ) : ℝ × ℝ :=
  let e := x - p
  (-alpha * Real.sign e, u1 - Lambda * Real.sqrt |e| * Real.sign e)

/-- The `rk==4` loop of `levant`, threading `(u1, x)` across samples. -/
noncomputable def levant4 (alpha Lambda T : ℝ) : List ℝ → ℝ → ℝ → List ℝ
  | [], _, _ => []
  | p :: rest, u1, x =>
    let k1 := f alpha Lambda p u1 x
    let k2 := f alpha Lambda p (u1 + (T / 2) * k1.1) (x + (T / 2) * k1.2)
    let k3 := f alpha Lambda p (u1 + (T / 2) * k2.1) (x + (T / 2) * k2.2)
    let k4 := f alpha Lambda p (u1 + T * k3.1) (x + T * k3.2)
    let u1' := u1 + (T / 6) * (k1.1 + 2 * k2.1 + 2 * k3.1 + k4.1)
    let u := (1 / 6 : ℝ) * (k1.2 + 2 * k2.2 + 2 * k3.2 + k4.2)
    u :: levant4 alpha Lambda T rest u1' (x + u * T)

/-- The `rk==2` loop of `levant`. -/
noncomputable def levant2 (alpha Lambda T : ℝ) : List ℝ → ℝ → ℝ → List ℝ
  | [], _, _ => []
  | p :: rest, u1, x =>
    let k1 := f alpha Lambda p u1 x
    let tu1 := u1 + k1.1 * (T / 2)
    let tx := x + k1.2 * (T / 2)
    let k2 := f alpha Lambda p tu1 tx
    k2.2 :: levant2 alpha Lambda T rest (u1 + k2.1 * T) (x + k2.2 * T)

/-- The `rk==1` (Euler) loop of `levant`. -/
noncomputable def levant1 (alpha Lambda T : ℝ) : List ℝ → ℝ → ℝ → List ℝ
  | [], _, _ => []
  | p :: rest, u1, x =>
    let k1 := f alpha Lambda p u1 x
    k1.2 :: levant1 alpha Lambda T rest (u1 + k1.1 * T) (x + k1.2 * T)

/-- Levant's differentiator (`levant` of `velocity.py`).  `alpha` and
`Lambda` default (when `none`) to `1.1*C` and `sqrt(C)`; `x = u1 = 0`
initially; an `rk` outside `{1,2,4}` leaves the zero-initialized result
untouched. -/
noncomputable def levant (pos : List ℝ) (sr C : ℝ) (alpha Lambda : Option ℝ)
    (rk : ℤ) : List ℝ :=
  let T := 1 / sr
  let a := alpha.getD (1.1 * C)
  let L := Lambda.getD (Real.sqrt C)
  if rk = 4 then levant4 a L T pos 0 0
  else if rk = 2 then levant2 a L T pos 0 0
  else if rk = 1 then levant1 a L T pos 0 0
  else List.replicate pos.length 0

/-!
Spec-side step functions for the Runge–Kutta refinement claim: a state is
the pair `(x, u1)`; a step consumes one measurement `p` and returns the
advanced state together with the reported output.  These follow the spec's
description of the `rk=2` and `rk=4` schemes, to be compared with the
`levant2`/`levant4` loops taken from the source.
-/

/-- Spec-side `rk=2` step: evaluate at `(x, u1)`, half-step to the
intermediate state, evaluate again there, advance the state a full step `T`
with the second-stage derivatives, and report the second-stage `dx/dt`. -/
noncomputable def rk2SpecStep (alpha Lambda T : ℝ) (p : ℝ) (s : ℝ × ℝ) :
    (ℝ × ℝ) × ℝ :=
  let k1 := f alpha Lambda p s.2 s.1
  let k2 := f alpha Lambda p (s.2 + k1.1 * (T / 2)) (s.1 + k1.2 * (T / 2))
  ((s.1 + k2.2 * T, s.2 + k2.1 * T), k2.2)

/-- Spec-side `rk=4` step: four stage evaluations with weights `1,2,2,1 / 6`;
the state `x` advances by `T` times the weighted combination of the stage
`dx/dt` values and the output is that same weighted combination (no
re-evaluation at the advanced state); `u1` advances by `T` times the weighted
combination of the stage `du1/dt` values.  The measurement `p` is the same in
all four stages. -/
noncomputable def rk4SpecStep (alpha Lambda T : ℝ) (p : ℝ) (s : ℝ × ℝ) :
    (ℝ × ℝ) × ℝ :=
  let k1 := f alpha Lambda p s.2 s.1
  let k2 := f alpha Lambda p (s.2 + (T / 2) * k1.1) (s.1 + (T / 2) * k1.2)
  let k3 := f alpha Lambda p (s.2 + (T / 2) * k2.1) (s.1 + (T / 2) * k2.2)
  let k4 := f alpha Lambda p (s.2 + T * k3.1) (s.1 + T * k3.2)
  let u := (1 / 6 : ℝ) * (k1.2 + 2 * k2.2 + 2 * k3.2 + k4.2)
  ((s.1 + u * T, s.2 + (T / 6) * (k1.1 + 2 * k2.1 + 2 * k3.1 + k4.1)), u)

/-- Run a one-step state-transition function over the whole measurement
sequence, collecting the per-step outputs. -/
noncomputable def specRun (step : ℝ → (ℝ × ℝ) → (ℝ × ℝ) × ℝ) :
    List ℝ → (ℝ × ℝ) → List ℝ
  | [], _ => []
  | p :: rest, s =>
    let r := step p s
    r.2 :: specRun step rest r.1

/-- The strictly linear position ramp `pos[k] = v*k*T` of length `len`. -/
def linRamp (v T : ℚ) (len : ℕ) : List ℚ :=
  (List.range len).map (fun (k : ℕ) => v * (k : ℚ) * T)

/-! ### Helper lemmas -/

theorem getD_map_range (g : ℕ → ℚ) (m k : ℕ) (hk : k < m) :
    ((List.range m).map g).getD k 0 = g k := by
  rw [List.getD_eq_getElem?_getD, List.getElem?_map, List.getElem?_range hk]
  rfl

theorem foaw_getD (pos : List ℚ) (sr noise_max : ℚ) (n : ℕ) (best : Bool)
    (k : ℕ) (hk : k < pos.length) :
    (foaw pos sr noise_max n best).getD k 0 =
      foawStep pos (1 / sr) noise_max n best k := by
  unfold foaw
  exact getD_map_range _ _ _ hk

theorem projOutside_eq_false_iff (pos : List ℚ) (T noise_max : ℚ) (k : ℕ)
    (b : ℚ) (j : ℕ) :
    projOutside pos T noise_max k b j = false ↔ projInBand pos T noise_max k b j := by
  unfold projOutside projInBand
  simp [not_lt, and_comm]

theorem windowOutside_eq_false_iff (pos : List ℚ) (T noise_max : ℚ) (k : ℕ)
    (b : ℚ) (i : ℕ) :
    windowOutside pos T noise_max k b i = false ↔
      ∀ j, 1 ≤ j → j < i → projInBand pos T noise_max k b j := by
  unfold windowOutside
  rw [List.any_eq_false]
  constructor
  · intro h j h1 h2
    have hj : j ∈ List.range' 1 (i - 1) := List.mem_range'_1.mpr ⟨h1, by omega⟩
    have := h j hj
    exact (projOutside_eq_false_iff pos T noise_max k b j).mp (by simpa using this)
  · intro h x hx
    obtain ⟨hx1, hx2⟩ := List.mem_range'_1.mp hx
    have : projInBand pos T noise_max k b x := h x hx1 (by omega)
    simp [(projOutside_eq_false_iff pos T noise_max k b x).mpr this]

theorem windowOutside_eq_true_iff (pos : List ℚ) (T noise_max : ℚ) (k : ℕ)
    (b : ℚ) (i : ℕ) :
    windowOutside pos T noise_max k b i = true ↔
      ∃ j, 1 ≤ j ∧ j < i ∧ ¬ projInBand pos T noise_max k b j := by
  unfold windowOutside
  rw [List.any_eq_true]
  constructor
  · rintro ⟨x, hx, hpx⟩
    obtain ⟨hx1, hx2⟩ := List.mem_range'_1.mp hx
    refine ⟨x, hx1, by omega, ?_⟩
    intro hband
    have hfalse := (projOutside_eq_false_iff pos T noise_max k b x).mpr hband
    rw [hfalse] at hpx
    exact absurd hpx (by simp)
  · rintro ⟨j, h1, h2, hc⟩
    refine ⟨j, List.mem_range'_1.mpr ⟨h1, by omega⟩, ?_⟩
    by_contra hb
    exact hc ((projOutside_eq_false_iff pos T noise_max k b j).mp (by simpa using hb))

theorem foawLoop_range'_fail (pos : List ℚ) (T noise_max : ℚ) (best : Bool)
    (k i₀ : ℕ) :
    ∀ (b a : ℕ) (v : ℚ), a ≤ i₀ → i₀ < a + b →
    (∀ i, a ≤ i → i < i₀ →
      windowOutside pos T noise_max k (trialSlope pos T best k i) i = false) →
    windowOutside pos T noise_max k (trialSlope pos T best k i₀) i₀ = true →
    foawLoop pos T noise_max best k (List.range' a b) v =
      if i₀ = a then v else trialSlope pos T best k (i₀ - 1) := by
  intro b
  induction b with
  | zero => intro a v h1 h2 _ _; omega
  | succ m ih =>
    intro a v h1 h2 hpass hfail
    rw [List.range'_succ]
    simp only [foawLoop]
    by_cases hcase : i₀ = a
    · rw [if_pos hcase, ← hcase, hfail]
      simp
    · have ha : a < i₀ := lt_of_le_of_ne h1 (fun h => hcase h.symm)
      rw [hpass a le_rfl ha]
      simp only [Bool.false_eq_true, if_false, if_neg hcase]
      rw [ih (a + 1) (trialSlope pos T best k a) (by omega) (by omega)
        (fun i hi1 hi2 => hpass i (by omega) hi2) hfail]
      by_cases hcase2 : i₀ = a + 1
      · rw [if_pos hcase2, hcase2]
        simp
      · rw [if_neg hcase2]

theorem foawLoop_allpass (pos : List ℚ) (T noise_max : ℚ) (best : Bool)
    (k : ℕ) (v : ℚ) :
    ∀ (l : List ℕ) (v0 : ℚ),
    (∀ i ∈ l, trialSlope pos T best k i = v ∧
      windowOutside pos T noise_max k (trialSlope pos T best k i) i = false) →
    l ≠ [] →
    foawLoop pos T noise_max best k l v0 = v := by
  intro l
  induction l with
  | nil => intro v0 _ hne; exact absurd rfl hne
  | cons i rest ih =>
    intro v0 h _
    obtain ⟨hs, hw⟩ := h i (by simp)
    simp only [foawLoop]
    rw [hw]
    simp only [Bool.false_eq_true, if_false]
    cases rest with
    | nil => simpa [foawLoop] using hs
    | cons j rest' =>
      exact ih _ (fun x hx => h x (List.mem_cons_of_mem i hx)) (by simp)

theorem list_range_map_sum (g : ℕ → ℚ) (m : ℕ) :
    ((List.range m).map g).sum = ∑ j in Finset.range m, g j := by
  induction m with
  | zero => rfl
  | succ t ih =>
    rw [List.range_succ, List.map_append, List.sum_append, Finset.sum_range_succ, ih]
    simp

theorem levant4_length (alpha Lambda T : ℝ) :
    ∀ (l : List ℝ) (u1 x : ℝ), (levant4 alpha Lambda T l u1 x).length = l.length := by
  intro l
  induction l with
  | nil => intro u1 x; rfl
  | cons p rest ih => intro u1 x; simp only [levant4, List.length_cons, ih]

theorem levant2_length (alpha Lambda T : ℝ) :
    ∀ (l : List ℝ) (u1 x : ℝ), (levant2 alpha Lambda T l u1 x).length = l.length := by
  intro l
  induction l with
  | nil => intro u1 x; rfl
  | cons p rest ih => intro u1 x; simp only [levant2, List.length_cons, ih]

theorem levant1_length (alpha Lambda T : ℝ) :
    ∀ (l : List ℝ) (u1 x : ℝ), (levant1 alpha Lambda T l u1 x).length = l.length := by
  intro l
  induction l with
  | nil => intro u1 x; rfl
  | cons p rest ih => intro u1 x; simp only [levant1, List.length_cons, ih]

theorem levant_length (pos : List ℝ) (sr C : ℝ) (a L : Option ℝ) (rk : ℤ) :
    (levant pos sr C a L rk).length = pos.length := by
  unfold levant
  split_ifs <;>
    simp [levant4_length, levant2_length, levant1_length]

theorem pySlice_eq_map_range' (l : List ℚ) :
    ∀ (c a : ℕ), a + c ≤ l.length →
    pySlice l a (a + c) = (List.range' a c).map (fun idx => l.getD idx 0) := by
  intro c
  induction c with
  | zero => intro a _; simp [pySlice]
  | succ m ih =>
    intro a h
    unfold pySlice
    have hsub : a + (m + 1) - a = m + 1 := by omega
    have ha : a < l.length := by omega
    rw [hsub, List.drop_eq_getElem_cons ha, List.take_succ_cons, List.range'_succ,
      List.map_cons]
    congr 1
    · exact (List.getD_eq_getElem l 0 ha).symm
    · have h2 := ih (a + 1) (by omega)
      unfold pySlice at h2
      have h3 : a + 1 + m - (a + 1) = m := by omega
      rw [h3] at h2
      exact h2

/-! ### Claim theorems -/

/-- C3: in `foaw` with `best=True`, the trial slope `b` for window parameter
`i` at step `k` equals the closed-form least-squares formula
`(i * Σ_{j=0..i} pos[k-j] - 2 * Σ_{j=0..i} j*pos[k-j]) / (T*i*(i+1)*(i+2)/6)`
with `T = 1/sr`. -/
theorem best_fit_slope_formula (pos : List ℚ) (sr : ℚ) (k i : ℕ) :
    trialSlope pos (1 / sr) true k i =
      ((i : ℚ) * (∑ j in Finset.range (i + 1), pos.getD (k - j) 0)
        - 2 * (∑ j in Finset.range (i + 1), (j : ℚ) * pos.getD (k - j) 0))
      / ((1 / sr) * (i : ℚ) * ((i : ℚ) + 1) * ((i : ℚ) + 2) / 6) := by
  unfold trialSlope bestSlope
  rw [if_pos rfl, list_range_map_sum, list_range_map_sum]
  have h2 : (∑ j in Finset.range (i + 1), pos.getD (k - j) 0 * (j : ℚ))
      = ∑ j in Finset.range (i + 1), (j : ℚ) * pos.getD (k - j) 0 :=
    Finset.sum_congr rfl (fun j _ => mul_comm _ _)
  rw [h2]

/-- C5: every estimator (`foaw` with either scoring variant, `median_filter`,
and `levant` with `rk ∈ {1,2,4}`) returns a velocity sequence whose length
equals the length of the input position sequence. -/
theorem estimator_length (pos : List ℚ) (sr noise_max : ℚ) (n m : ℕ) (best : Bool)
    (posR : List ℝ) (srR C : ℝ) (a L : Option ℝ) (rk : ℤ)
    (_hpos : pos ≠ []) (_hposR : posR ≠ [])
    (_hrk : rk = 1 ∨ rk = 2 ∨ rk = 4) :
    (foaw pos sr noise_max n best).length = pos.length ∧
    (median_filter pos m).length = pos.length ∧
    (levant posR srR C a L rk).length = posR.length := by
  exact ⟨by simp [foaw], by simp [median_filter], levant_length posR srR C a L rk⟩

/-- Witness for C5 at a concrete input. -/
theorem estimator_length_witness :
    (foaw [1, 2] 1 0 16 false).length = 2 ∧
    (median_filter [1, 2] 5).length = 2 ∧
    (levant [1, 2] 100 1 none none 2).length = 2 :=
  estimator_length [1, 2] 1 0 16 5 false [1, 2] 100 1 none none 2
    (by decide) (by decide) (Or.inr (Or.inl rfl))

/-- C7: for every position sequence of length ≥ 2 and any parameters,
`foaw` returns `result[0] = 0` and `result[1] = 0` (insufficient history:
the trial-window loop is empty at `k = 0` and `k = 1`). -/
theorem foaw_first_two_zero (pos : List ℚ) (sr noise_max : ℚ) (n : ℕ)
    (best : Bool) (h : 2 ≤ pos.length) :
    (foaw pos sr noise_max n best).getD 0 0 = 0 ∧
    (foaw pos sr noise_max n best).getD 1 0 = 0 := by
  constructor
  · rw [foaw_getD pos sr noise_max n best 0 (by omega)]
    unfold foawStep
    have h0 : min n 0 - 1 = 0 := by omega
    rw [h0]
    rfl
  · rw [foaw_getD pos sr noise_max n best 1 (by omega)]
    unfold foawStep
    have h1 : min n 1 - 1 = 0 := by omega
    rw [h1]
    rfl

/-- Witness for C7 at a concrete input. -/
theorem foaw_first_two_zero_witness :
    (foaw [1, 5] 1 0 16 false).getD 0 0 = 0 ∧
    (foaw [1, 5] 1 0 16 false).getD 1 0 = 0 :=
  foaw_first_two_zero [1, 5] 1 0 16 false (by decide)

/-- C8: `median_filter` returns `result[0] = 0`, and for `k ≥ 1` returns the
median of the window `pos[max(k-n,0) : k]`, i.e. of the samples at indices
`max(k-n,0), …, k-1` — the window excludes `pos[k]` itself. -/
theorem median_filter_window (pos : List ℚ) (n k : ℕ)
    (h0 : pos ≠ []) (hk1 : 1 ≤ k) (hk : k < pos.length) :
    (median_filter pos n).getD 0 0 = 0 ∧
    (median_filter pos n).getD k 0 =
      npMedian ((List.range' (max (k - n) 0) (k - max (k - n) 0)).map
        (fun idx => pos.getD idx 0)) := by
  have hlen : 0 < pos.length := List.length_pos.mpr h0
  constructor
  · unfold median_filter
    rw [getD_map_range _ _ _ hlen]
    rfl
  · unfold median_filter
    rw [getD_map_range _ _ _ hk]
    have hk0 : ¬ (k = 0) := by omega
    rw [if_neg hk0]
    have ha : max (k - n) 0 + (k - max (k - n) 0) = k := by omega
    have hle : max (k - n) 0 + (k - max (k - n) 0) ≤ pos.length := by omega
    have := pySlice_eq_map_range' pos (k - max (k - n) 0) (max (k - n) 0) hle
    rw [ha] at this
    rw [this]

/-- Witness for C8 at a concrete input: window `[3, 1]`, median `2`. -/
theorem median_filter_window_witness :
    (median_filter [3, 1, 2] 5).getD 0 0 = 0 ∧
    (median_filter [3, 1, 2] 5).getD 2 0 = npMedian [3, 1] :=
  median_filter_window [3, 1, 2] 5 2 (by decide) (by decide) (by decide)

/-- C10: `levant` with `rk` outside `{1,2,4}` raises no error and returns the
zero-initialized result unchanged: a sequence of `len(pos)` exact zeros. -/
theorem levant_invalid_rk (pos : List ℝ) (sr C : ℝ) (a L : Option ℝ) (rk : ℤ)
    (h1 : rk ≠ 1) (h2 : rk ≠ 2) (h4 : rk ≠ 4) :
    levant pos sr C a L rk = List.replicate pos.length 0 := by
  unfold levant
  rw [if_neg h4, if_neg h2, if_neg h1]

/-- Witness for C10 at `rk = 3`. -/
theorem levant_invalid_rk_witness :
    levant [5, 7] 100 2 none none 3 = List.replicate 2 0 :=
  levant_invalid_rk [5, 7] 100 2 none none 3
    (by decide) (by decide) (by decide)

theorem list_any_congr {α : Type} (p q : α → Bool) :
    ∀ (l : List α), (∀ x ∈ l, p x = q x) → l.any p = l.any q := by
  intro l
  induction l with
  | nil => intro _; rfl
  | cons a t ih =>
    intro h
    simp only [List.any_cons]
    rw [h a (by simp), ih (fun x hx => h x (List.mem_cons_of_mem a hx))]

theorem linRamp_getD (v T : ℚ) (len m : ℕ) (h : m < len) :
    (linRamp v T len).getD m 0 = v * (m : ℚ) * T := by
  unfold linRamp
  exact getD_map_range _ _ _ h

theorem endSlope_linRamp (v T : ℚ) (len k i : ℕ) (hT : T ≠ 0)
    (hi1 : 1 ≤ i) (hik : i ≤ k) (hk : k < len) :
    endSlope (linRamp v T len) T k i = v := by
  unfold endSlope
  rw [linRamp_getD v T len k hk, linRamp_getD v T len (k - i) (by omega),
    Nat.cast_sub hik]
  have hi0 : (i : ℚ) ≠ 0 := Nat.cast_ne_zero.mpr (by omega)
  field_simp
  ring

theorem windowOutside_linRamp (v T noise_max : ℚ) (len k i : ℕ)
    (hnm : 0 ≤ noise_max) (hik : i ≤ k) (hk : k < len) :
    windowOutside (linRamp v T len) T noise_max k v i = false := by
  rw [windowOutside_eq_false_iff]
  intro j hj1 hj2
  unfold projInBand
  rw [linRamp_getD v T len k hk, linRamp_getD v T len (k - j) (by omega),
    Nat.cast_sub (by omega)]
  have key : v * ((k : ℚ) - (j : ℚ)) * T = v * (k : ℚ) * T - v * (j : ℚ) * T := by
    ring
  rw [key]
  constructor <;> linarith

theorem foawLoop_congr (pos pos' : List ℚ) (T noise_max : ℚ) (best : Bool)
    (k B : ℕ)
    (hagree : ∀ j, j ≤ B → pos.getD (k - j) 0 = pos'.getD (k - j) 0) :
    ∀ (l : List ℕ), (∀ i ∈ l, i ≤ B) → ∀ v,
    foawLoop pos T noise_max best k l v = foawLoop pos' T noise_max best k l v := by
  have hk0 : pos.getD k 0 = pos'.getD k 0 := by
    simpa using hagree 0 (Nat.zero_le B)
  have hslope : ∀ i, i ≤ B →
      trialSlope pos T best k i = trialSlope pos' T best k i := by
    intro i hiB
    cases best with
    | false =>
      simp only [trialSlope, Bool.false_eq_true, if_false]
      unfold endSlope
      rw [hk0, hagree i hiB]
    | true =>
      simp only [trialSlope, if_true]
      unfold bestSlope
      simp only [list_range_map_sum]
      have e1 : (∑ j in Finset.range (i + 1), pos.getD (k - j) 0)
          = ∑ j in Finset.range (i + 1), pos'.getD (k - j) 0 :=
        Finset.sum_congr rfl (fun j hj =>
          hagree j (by have := Finset.mem_range.mp hj; omega))
      have e2 : (∑ j in Finset.range (i + 1), pos.getD (k - j) 0 * (j : ℚ))
          = ∑ j in Finset.range (i + 1), pos'.getD (k - j) 0 * (j : ℚ) :=
        Finset.sum_congr rfl (fun j hj => by
          rw [hagree j (by have := Finset.mem_range.mp hj; omega)])
      rw [e1, e2]
  have hwin : ∀ (b : ℚ) (i : ℕ), i ≤ B →
      windowOutside pos T noise_max k b i = windowOutside pos' T noise_max k b i := by
    intro b i hiB
    unfold windowOutside
    apply list_any_congr
    intro j hj
    obtain ⟨hj1, hj2⟩ := List.mem_range'_1.mp hj
    unfold projOutside
    rw [hk0, hagree j (by omega)]
  intro l
  induction l with
  | nil => intro _ v; rfl
  | cons i rest ih =>
    intro hbound v
    have hiB : i ≤ B := hbound i (by simp)
    simp only [foawLoop]
    rw [hslope i hiB, hwin (trialSlope pos' T best k i) i hiB]
    cases hcc : windowOutside pos' T noise_max k (trialSlope pos' T best k i) i with
    | true => simp
    | false =>
      simp only [Bool.false_eq_true, if_false]
      exact ih (fun x hx => hbound x (List.mem_cons_of_mem i hx)) _

/-- C1: in `foaw`, trial windows are validated at the interior offsets
`j = 1..i-1` by comparing the projection `pos[k] - b*j*T` to
`pos[k-j] ± noise_max`; when windows `1..i₀-1` all validate and window `i₀`
has some interior projection outside the band, the `i`-loop stops and
`result[k]` is the previously accepted velocity — the slope of the last
window that passed validation. -/
theorem foaw_reject_keeps_previous (pos : List ℚ) (sr noise_max : ℚ) (n : ℕ)
    (best : Bool) (k i₀ : ℕ) (hk : k < pos.length)
    (h1 : 1 ≤ i₀) (h2 : i₀ < min n k)
    (hpass : ∀ i, 1 ≤ i → i < i₀ → ∀ j, 1 ≤ j → j < i →
      projInBand pos (1 / sr) noise_max k (trialSlope pos (1 / sr) best k i) j)
    (hfail : ∃ j, 1 ≤ j ∧ j < i₀ ∧
      ¬ projInBand pos (1 / sr) noise_max k (trialSlope pos (1 / sr) best k i₀) j) :
    (foaw pos sr noise_max n best).getD k 0 =
      trialSlope pos (1 / sr) best k (i₀ - 1) := by
  rw [foaw_getD pos sr noise_max n best k hk]
  unfold foawStep
  have hfail' : windowOutside pos (1 / sr) noise_max k
      (trialSlope pos (1 / sr) best k i₀) i₀ = true :=
    (windowOutside_eq_true_iff _ _ _ _ _ _).mpr hfail
  have hpass' : ∀ i, 1 ≤ i → i < i₀ →
      windowOutside pos (1 / sr) noise_max k
        (trialSlope pos (1 / sr) best k i) i = false :=
    fun i hi1 hi2 => (windowOutside_eq_false_iff _ _ _ _ _ _).mpr (hpass i hi1 hi2)
  rw [foawLoop_range'_fail pos (1 / sr) noise_max best k i₀ (min n k - 1) 1 0
    h1 (by omega) hpass' hfail']
  obtain ⟨j, hj1, hj2, _⟩ := hfail
  rw [if_neg (by omega)]

/-- Witness for C1: on `[0,0,0,2]` at `k = 3` the two-sample window `i₀ = 2`
is rejected and the previously accepted one-sample slope is emitted. -/
theorem foaw_reject_keeps_previous_witness :
    (foaw [0, 0, 0, 2] 1 0 16 false).getD 3 0 =
      trialSlope [0, 0, 0, 2] (1 / 1) false 3 1 :=
  foaw_reject_keeps_previous [0, 0, 0, 2] 1 0 16 false 3 2
    (by decide) (by decide) (by decide)
    (fun i hi1 hi2 j hj1 hj2 => absurd hj2 (by omega))
    ⟨1, by decide, by decide, by norm_num [projInBand, trialSlope, endSlope]⟩

/-- C2: on the strictly linear ramp `pos[k] = v*k*T` (`T = 1/sr`, `sr > 0`),
end-fit `foaw` with `noise_max ≥ 0` and `n ≥ 2` returns `result[k] = v` for
every `k ≥ 2`: each trial slope is exactly `v` and every interior validation
passes, so the window grows to its cap without rejection. -/
theorem foaw_linear_ramp (v sr noise_max : ℚ) (len n k : ℕ)
    (hsr : 0 < sr) (hnm : 0 ≤ noise_max) (hn : 2 ≤ n) (hk2 : 2 ≤ k)
    (hk : k < len) :
    (foaw (linRamp v (1 / sr) len) sr noise_max n false).getD k 0 = v := by
  have hlen : (linRamp v (1 / sr) len).length = len := by
    simp [linRamp]
  rw [foaw_getD _ sr noise_max n false k (by rw [hlen]; exact hk)]
  unfold foawStep
  have hT : (1 / sr) ≠ 0 := one_div_ne_zero (ne_of_gt hsr)
  apply foawLoop_allpass (linRamp v (1 / sr) len) (1 / sr) noise_max false k v
  · intro i hi
    obtain ⟨hi1, hi2⟩ := List.mem_range'_1.mp hi
    have hik : i ≤ k := by omega
    have hs : trialSlope (linRamp v (1 / sr) len) (1 / sr) false k i = v := by
      have hend : trialSlope (linRamp v (1 / sr) len) (1 / sr) false k i
          = endSlope (linRamp v (1 / sr) len) (1 / sr) k i := rfl
      rw [hend]
      exact endSlope_linRamp v (1 / sr) len k i hT hi1 hik hk
    refine ⟨hs, ?_⟩
    rw [hs]
    exact windowOutside_linRamp v (1 / sr) noise_max len k i hnm hik hk
  · simp only [ne_eq, List.range'_eq_nil]
    omega

/-- Witness for C2 at `v = 3`, `sr = 2`, `k = 2`. -/
theorem foaw_linear_ramp_witness :
    (foaw (linRamp 3 (1 / 2) 4) 2 0 2 false).getD 2 0 = 3 :=
  foaw_linear_ramp 3 2 0 4 2 2
    (by norm_num) (by norm_num) (by decide) (by decide) (by decide)

/-- C6: the window `foaw` uses at step `k` never exceeds `min(n, k)` samples:
the output at step `k` depends only on the samples at indices `k-j` for
`0 ≤ j ≤ min(n,k) - 1` (all of which lie in `[0, k]`), so two position
sequences agreeing there produce the same `result[k]`. -/
theorem foaw_window_bound (pos pos' : List ℚ) (sr noise_max : ℚ) (n : ℕ)
    (best : Bool) (k : ℕ) (hk : k < pos.length) (hk' : k < pos'.length)
    (hagree : ∀ j, j ≤ min n k - 1 → pos.getD (k - j) 0 = pos'.getD (k - j) 0) :
    (foaw pos sr noise_max n best).getD k 0 =
      (foaw pos' sr noise_max n best).getD k 0 := by
  rw [foaw_getD pos sr noise_max n best k hk,
    foaw_getD pos' sr noise_max n best k hk']
  unfold foawStep
  apply foawLoop_congr pos pos' (1 / sr) noise_max best k (min n k - 1) hagree
  intro i hi
  obtain ⟨hi1, hi2⟩ := List.mem_range'_1.mp hi
  omega

/-- Witness for C6: with `n = 2`, `k = 3` the sequences differ at index 0,
outside the window, and the outputs agree. -/
theorem foaw_window_bound_witness :
    (foaw [9, 1, 2, 3] 1 0 2 false).getD 3 0 =
      (foaw [7, 1, 2, 3] 1 0 2 false).getD 3 0 :=
  foaw_window_bound [9, 1, 2, 3] [7, 1, 2, 3] 1 0 2 false 3
    (by decide) (by decide)
    (fun j hj => by
      have hj2 : j = 0 ∨ j = 1 := by omega
      rcases hj2 with h | h <;> subst h <;> rfl)

theorem levant2_eq_specRun (alpha Lambda T : ℝ) :
    ∀ (l : List ℝ) (u1 x : ℝ),
    levant2 alpha Lambda T l u1 x =
      specRun (rk2SpecStep alpha Lambda T) l (x, u1) := by
  intro l
  induction l with
  | nil => intro u1 x; rfl
  | cons p rest ih =>
    intro u1 x
    simp only [levant2, specRun, rk2SpecStep]
    rw [ih]

theorem levant4_eq_specRun (alpha Lambda T : ℝ) :
    ∀ (l : List ℝ) (u1 x : ℝ),
    levant4 alpha Lambda T l u1 x =
      specRun (rk4SpecStep alpha Lambda T) l (x, u1) := by
  intro l
  induction l with
  | nil => intro u1 x; rfl
  | cons p rest ih =>
    intro u1 x
    simp only [levant4, specRun, rk4SpecStep]
    rw [ih]

/-- C4: `levant` with `rk=2` is exactly the per-sample scheme that advances
`(x, u1)` a full step `T` with the second-stage derivatives (evaluated at the
half-step intermediate state) and reports the second-stage `dx/dt`; with
`rk=4` it advances by the `1,2,2,1 / 6` weighted combination and reports that
same weighted combination (no re-evaluation at the new state); in all stages
the measurement `pos[k]` is held constant (each step function takes the
single sample `p`). -/
theorem levant_rk2_rk4_scheme (pos : List ℝ) (sr C : ℝ)
    (alpha Lambda : Option ℝ) :
    levant pos sr C alpha Lambda 2 =
      specRun (rk2SpecStep (alpha.getD (1.1 * C)) (Lambda.getD (Real.sqrt C))
        (1 / sr)) pos (0, 0) ∧
    levant pos sr C alpha Lambda 4 =
      specRun (rk4SpecStep (alpha.getD (1.1 * C)) (Lambda.getD (Real.sqrt C))
        (1 / sr)) pos (0, 0) := by
  constructor
  · unfold levant
    rw [if_neg (by decide), if_pos rfl]
    exact levant2_eq_specRun _ _ _ pos 0 0
  · unfold levant
    rw [if_pos rfl]
    exact levant4_eq_specRun _ _ _ pos 0 0

/-- C9 counterexample: the estimators do not reject parameter domain errors
at entry.  With the out-of-domain parameters `sr = -1 < 0` and
`noise_max = -1 < 0`, `foaw` does not fail: it proceeds and computes the full
(nonzero) velocity sequence `[0, 0, -1]`. -/
theorem foaw_no_entry_validation_cex :
    foaw [0, 1, 2] (-1) (-1) 16 false = [0, 0, -1] := by
  have hr : List.range ([0, 1, 2] : List ℚ).length = [0, 1, 2] := rfl
  unfold foaw
  rw [hr]
  simp only [List.map_cons, List.map_nil, List.cons.injEq, and_true]
  refine ⟨rfl, rfl, ?_⟩
  show foawLoop [0, 1, 2] (1 / (-1)) (-1) false 2 [1] 0 = -1
  simp only [foawLoop, windowOutside, List.range', List.any_nil,
    Bool.false_eq_true, if_false]
  show trialSlope [0, 1, 2] (1 / (-1)) false 2 1 = -1
  norm_num [trialSlope, endSlope]

/-- C9 amended: the estimators perform no parameter validation at entry.
With a negative sample rate and negative `noise_max`, `foaw` proceeds and
returns a full-length result (only `sr = 0` aborts, via the division `1/sr`
itself, not an entry check); with non-positive `C` and any `rk` whatsoever,
`levant` likewise proceeds and returns a full-length result. -/
theorem no_entry_validation (pos : List ℚ) (sr noise_max : ℚ) (n : ℕ)
    (best : Bool) (posR : List ℝ) (srR C : ℝ) (a L : Option ℝ) (rk : ℤ)
    (_hsr : sr < 0) (_hnm : noise_max < 0) (_hC : C ≤ 0) :
    (foaw pos sr noise_max n best).length = pos.length ∧
    (levant posR srR C a L rk).length = posR.length :=
  ⟨by simp [foaw], levant_length posR srR C a L rk⟩

/-- Witness for the amended C9 at concrete out-of-domain parameters. -/
theorem no_entry_validation_witness :
    (foaw [0, 1, 2] (-1) (-1) 16 false).length = 3 ∧
    (levant [0, 1] 100 (-1) none none 3).length = 2 :=
  no_entry_validation [0, 1, 2] (-1) (-1) 16 false [0, 1] 100 (-1) none none 3
    (by norm_num) (by norm_num) (by norm_num)
